import Mathlib

/-!
Shallow embedding of the vocabulary core of `src/vocab/vocab.py`
(normalization, tokenization, aggregation, translation resolution,
cache handling, output ordering), together with theorems settling the
specification claims about it.

Strings are Lean `String`s (lists of Unicode scalar values), matching
Python strings over the character repertoire exercised by this program.
Python's `str.lower` is modelled by an explicit character table covering
ASCII letters and the non-ASCII letters of the supported languages
(German umlauts and sharp s, including the capital sharp s U+1E9E whose
Unicode lowercase mapping is U+00DF, and the accented vowels of the
Romance languages); characters outside the table are lowercase-invariant.
File-system and network effects are modelled by explicit parameters:
translation providers are oracle functions returning `Option String`
(`none` standing for an exception, a missing credential or an absent
result), and the JSON layer of the cache file is an abstract parser
returning `Except`.
-/

namespace Vocab

/-- Python `str.lower` character table for the modelled repertoire:
ASCII uppercase letters and the uppercase non-ASCII letters used by the
supported languages.  In particular the capital sharp s `ẞ` (U+1E9E)
lowercases to `ß` (U+00DF), as in Python. -/
def lowerMap : List (Char × Char) :=
  [('A','a'),('B','b'),('C','c'),('D','d'),('E','e'),('F','f'),('G','g'),
   ('H','h'),('I','i'),('J','j'),('K','k'),('L','l'),('M','m'),('N','n'),
   ('O','o'),('P','p'),('Q','q'),('R','r'),('S','s'),('T','t'),('U','u'),
   ('V','v'),('W','w'),('X','x'),('Y','y'),('Z','z'),
   ('Ä','ä'),('Ö','ö'),('Ü','ü'),('ẞ','ß'),
   ('Á','á'),('É','é'),('Í','í'),('Ó','ó'),('Ú','ú'),
   ('À','à'),('È','è'),('Ì','ì'),('Ò','ò'),('Ù','ù'),
   ('Â','â'),('Ê','ê'),('Î','î'),('Ô','ô'),('Û','û'),
   ('Ã','ã'),('Õ','õ'),('Ñ','ñ'),('Ç','ç')]

/-- Lowercasing of one character, per `lowerMap`. -/
def pyLowerChar (c : Char) : Char :=
  match lowerMap.find? (fun p => p.1 == c) with
  | some p => p.2
  | none => c

/-- Python `str.lower` over the modelled repertoire. -/
def pyLower (s : String) : String :=
  ⟨s.data.map pyLowerChar⟩

/-- Python `str.strip` whitespace test (space, tab, newline, carriage
return, vertical tab, form feed). -/
def isSpaceChar (c : Char) : Bool :=
  c == ' ' || c == '\t' || c == '\n' || c == '\r' ||
  c == Char.ofNat 11 || c == Char.ofNat 12

/-- Python `str.strip` on a character list: drop whitespace from the
front, then from the back. -/
def pyStripL (l : List Char) : List Char :=
  List.rdropWhile isSpaceChar (List.dropWhile isSpaceChar l)

/-- Python `str.strip` over the modelled repertoire. -/
def pyStrip (s : String) : String :=
  ⟨pyStripL s.data⟩

/-- The substitution table applied for language `"de"` in
`normalize_word` (vocab.py lines 83-92): the seven successive
single-character `str.replace` calls ä→ae, ö→oe, ü→ue, Ä→Ae, Ö→Oe,
Ü→Ue, ß→ss.  Since the seven source characters are distinct and none
occurs in any replacement text, the chained replaces coincide with this
single character-wise substitution. -/
def deSubst (c : Char) : List Char :=
  if c = 'ä' then ['a','e']
  else if c = 'ö' then ['o','e']
  else if c = 'ü' then ['u','e']
  else if c = 'Ä' then ['A','e']
  else if c = 'Ö' then ['O','e']
  else if c = 'Ü' then ['U','e']
  else if c = 'ß' then ['s','s']
  else [c]

/-- `normalize_word(word, lang)` of vocab.py: strip; empty stays empty;
for `"de"` apply the substitution table; finally lowercase. -/
def normalize_word (word : String) (lang : String) : String :=
  let w := pyStrip word
  if w = "" then ""
  else
    let w2 : String := if lang = "de" then ⟨w.data.flatMap deSubst⟩ else w
    pyLower w2

/-- `SUPPORTED_LANGS` of vocab.py. -/
def SUPPORTED_LANGS : List String := ["de", "en", "pt", "it", "es"]

/-- `TARGET_LANG` of vocab.py. -/
def TARGET_LANG : String := "es"

/-- `contains_number(word)`: whether any character is a digit. -/
def contains_number (word : String) : Bool :=
  word.data.any Char.isDigit

/-- Non-ASCII letters of the modelled repertoire that count as word
characters for the Unicode regex `\w`. -/
def extraWordChars : List Char :=
  ['ä','ö','ü','Ä','Ö','Ü','ß','ẞ',
   'á','é','í','ó','ú','à','è','ì','ò','ù',
   'â','ê','î','ô','û','ã','õ','ñ','ç',
   'Á','É','Í','Ó','Ú','À','È','Ì','Ò','Ù',
   'Â','Ê','Î','Ô','Û','Ã','Õ','Ñ','Ç']

/-- The regex word-character class `\w` (Unicode) over the modelled
repertoire: ASCII letters and digits, underscore, and the non-ASCII
letters of the supported languages. -/
def isWordChar (c : Char) : Bool :=
  c.isAlphanum || c == '_' || extraWordChars.contains c

/-- One step of splitting a character stream into maximal word-character
runs, processed right to left: the accumulator holds the run currently
being built and the tokens already completed to the right. -/
def tokenizeStep (c : Char) (acc : List Char × List String) :
    List Char × List String :=
  if isWordChar c then (c :: acc.1, acc.2)
  else ([], if acc.1.isEmpty then acc.2 else (⟨acc.1⟩ : String) :: acc.2)

/-- `tokenize(text)`: `re.findall` of `\b\w+\b` with the Unicode flag,
i.e. the list of maximal runs of word characters, in order. -/
def tokenize (text : String) : List String :=
  let r := text.data.foldr tokenizeStep ([], [])
  if r.1.isEmpty then r.2 else (⟨r.1⟩ : String) :: r.2

/-- One value of the aggregation map `words_data` of `count_words`:
the first-seen original spelling and the running count. -/
structure WEntry where
  original : String
  count : Nat
  deriving DecidableEq

/-- The aggregation map `words_data` (a Python dict, i.e. an
insertion-ordered association list with unique keys). -/
abbrev WordsData := List (String × WEntry)

/-- The ignore dictionary built by `load_ignore_words`: the set of
normalized forms and the set of lowercased original forms, modelled as
lists. -/
structure IgnoreSpec where
  normalized : List String
  originals : List String

/-- Dict lookup on an association list (Python `d.get(k)` /
`k in d`). -/
def lookupAssoc {β : Type} : List (String × β) → String → Option β
  | [], _ => none
  | p :: ps, k => if p.1 = k then some p.2 else lookupAssoc ps k

/-- Dict assignment `d[k] = v` on an association list: replace the
value at an existing key in place, else append the new binding. -/
def insertAssoc {β : Type} : List (String × β) → String → β → List (String × β)
  | [], k, v => [(k, v)]
  | p :: ps, k, v => if p.1 = k then (k, v) :: ps else p :: insertAssoc ps k v

/-- The insert-or-increment of `count_words` (vocab.py lines 417-421):
a new key is appended with count 1 and the token as first-seen original;
an existing key only has its count incremented, its original untouched. -/
def addWord : WordsData → String → String → WordsData
  | [], norm, orig => [(norm, ⟨orig, 1⟩)]
  | p :: ps, norm, orig =>
    if p.1 = norm then (p.1, ⟨p.2.original, p.2.count + 1⟩) :: ps
    else p :: addWord ps norm orig

/-- The body of the token loop of `count_words` (vocab.py lines
400-421): skip tokens containing a digit, tokens normalizing to the
empty key, and tokens matching the ignore dictionary by normalized or
by lowercased literal form; otherwise insert-or-increment. -/
def countStep (lang : String) (ig : IgnoreSpec) (m : WordsData)
    (original : String) : WordsData :=
  if contains_number original then m
  else
    let norm := normalize_word original lang
    if norm = "" then m
    else if ig.normalized.contains norm then m
    else if ig.originals.contains (pyLower original) then m
    else addWord m norm original

/-- Sum of the counts of an aggregation map (`sum(v["count"] for v in
words_data.values())`). -/
def sumCounts (m : WordsData) : Nat :=
  (m.map (fun p => p.2.count)).sum

/-- `count_words(text, lang, ignore_dict)`: tokenize, run the token
loop, and return the map together with the raw token count and the sum
of the retained counts. -/
def count_words (text : String) (lang : String) (ig : IgnoreSpec) :
    WordsData × Nat × Nat :=
  let tokens := tokenize text
  let m := tokens.foldl (countStep lang ig) []
  (m, tokens.length, sumCounts m)

/-- The truthiness test `if result:` applied by `get_translation` to a
provider outcome: `none` (exception, missing client or absent result)
and the empty string are misses. -/
def optNonempty : Option String → Option String
  | some s => if s = "" then none else some s
  | none => none

/-- A translation provider as seen by `get_translation`: given
(text, source language, target language) it produces a translation or
fails (`none` covers exceptions, missing credentials and empty
responses of the underlying `translate_with_deepl` /
`translate_with_mymemory`). -/
abbrev Provider := String → String → String → Option String

/-- `get_translation(norm_key, original_word, lang, lang_cache)` of
vocab.py (lines 319-377), with the two providers passed explicitly and
the number of calls made to each returned alongside the result and the
updated per-language cache slice: cache hit returns immediately;
otherwise DeepL is tried, then MyMemory, then the sentinel `"X"`; every
non-cache-hit branch stores its result under `norm_key`. -/
def get_translation (norm_key original_word lang : String)
    (lang_cache : List (String × String)) (deepl mymem : Provider) :
    String × List (String × String) × Nat × Nat :=
  match lookupAssoc lang_cache norm_key with
  | some v => (v, lang_cache, 0, 0)
  | none =>
    match optNonempty (deepl original_word lang TARGET_LANG) with
    | some t => (t, insertAssoc lang_cache norm_key t, 1, 0)
    | none =>
      match optNonempty (mymem original_word lang TARGET_LANG) with
      | some t => (t, insertAssoc lang_cache norm_key t, 1, 1)
      | none => ("X", insertAssoc lang_cache norm_key "X", 1, 1)

/-- The whole translation cache: language tag → per-language slice. -/
abbrev Cache := List (String × List (String × String))

/-- Lookup of one translation in the whole cache. -/
def cacheLookup (c : Cache) (lang k : String) : Option String :=
  match lookupAssoc c lang with
  | none => none
  | some slice => lookupAssoc slice k

/-- The `if lang not in cache: cache[lang] = ` step of `main`
(vocab.py lines 672-673), adding an empty slice for a missing
language. -/
def ensureLang (c : Cache) (lang : String) : Cache :=
  match lookupAssoc c lang with
  | some _ => c
  | none => insertAssoc c lang []

/-- The translation phase of `main` (vocab.py lines 652-690), from the
aggregated `words_data` on: `no_translate_mode` is the skip flag or the
language being `"es"`; in that mode every entry receives the placeholder
meaning `"-"` and `save_cache` is not called; otherwise every entry is
resolved through `get_translation` against the per-language cache slice
and the cache is saved.  Returns the annotated entries, the final cache,
whether a save was performed, and the total number of primary and
secondary provider calls. -/
def translatePhase (noTranslateFlag : Bool) (lang : String)
    (words : WordsData) (cache0 : Cache) (deepl mymem : Provider) :
    List (String × WEntry × String) × Cache × Bool × Nat × Nat :=
  let noTranslateMode := noTranslateFlag || lang = "es"
  let cache := ensureLang cache0 lang
  if noTranslateMode then
    (words.map (fun p => (p.1, p.2, "-")), cache, false, 0, 0)
  else
    let langCache :=
      match lookupAssoc cache lang with
      | some slice => slice
      | none => []
    let r := words.foldl
      (fun (acc : List (String × WEntry × String) ×
            List (String × String) × Nat × Nat) p =>
        let t := get_translation p.1 p.2.original lang acc.2.1 deepl mymem
        (acc.1 ++ [(p.1, p.2, t.1)], t.2.1,
         acc.2.2.1 + t.2.2.1, acc.2.2.2 + t.2.2.2))
      ([], langCache, 0, 0)
    (r.1, insertAssoc cache lang r.2.1, true, r.2.2.1, r.2.2.2)

/-- JSON values, for the cache file format. -/
inductive JVal where
  | jnull : JVal
  | jbool : Bool → JVal
  | jnum : Int → JVal
  | jstr : String → JVal
  | jarr : List JVal → JVal
  | jobj : List (String × JVal) → JVal

/-- `load_cache(cache_path)` of vocab.py (lines 235-255), with the file
content (`none` when the file is missing) and the `json.load` parser
passed explicitly: a missing file, a parse failure and a parsed value
that is not a dict all yield the empty dict; nothing is ever raised. -/
def load_cache (file : Option String)
    (jsonLoad : String → Except String JVal) : JVal :=
  match file with
  | none => .jobj []
  | some s =>
    match jsonLoad s with
    | .error _ => .jobj []
    | .ok v =>
      match v with
      | .jobj fields => .jobj fields
      | _ => .jobj []

/-- `save_cache(cache_path, cache)` of vocab.py (lines 258-263), with
the file write passed explicitly as its outcome: a failed write only
yields a warning message, a successful one yields nothing; nothing is
ever raised. -/
def save_cache (write : Except String Unit) : Option String :=
  match write with
  | .ok _ => none
  | .error e => some e

/-- The tail of `main` around the cache save: the computed entries are
delivered together with the save warning, the save outcome never
touching the entries. -/
def deliverResults (entries : List (String × Nat × String))
    (write : Except String Unit) :
    List (String × Nat × String) × Option String :=
  (entries, save_cache write)

/-- Lexicographic comparison of character lists by code point, i.e.
Python string comparison over the modelled repertoire. -/
def charListLe : List Char → List Char → Bool
  | [], _ => true
  | _ :: _, [] => false
  | a :: as, b :: bs =>
    if a < b then true
    else if b < a then false
    else charListLe as bs

/-- Python `s1 <= s2` on strings. -/
def pyStrLe (s1 s2 : String) : Bool :=
  charListLe s1.data s2.data

/-- The sort key comparison of `main` (vocab.py line 698):
`entries.sort` with key `(-count, original.lower())`, i.e. ascending
lexicographic order on that pair — higher counts first, ties by
lowercased original spelling. -/
def entryLE (a b : String × Nat × String) : Bool :=
  if b.2.1 < a.2.1 then true
  else if a.2.1 < b.2.1 then false
  else pyStrLe (pyLower a.1) (pyLower b.1)

/-- The `entries.sort(key=lambda x: (-x[1], x[0].lower()))` of `main`:
a stable sort by `entryLE` (Python list.sort is a stable sort by the
key's order). -/
def sortEntries (entries : List (String × Nat × String)) :
    List (String × Nat × String) :=
  entries.mergeSort entryLE

/-! ### Association-list lemmas -/

theorem lookupAssoc_insertAssoc_self {β : Type} (l : List (String × β))
    (k : String) (v : β) : lookupAssoc (insertAssoc l k v) k = some v := by
  induction l with
  | nil => simp [insertAssoc, lookupAssoc]
  | cons p ps ih =>
    by_cases h : p.1 = k
    · simp [insertAssoc, lookupAssoc, h]
    · simp [insertAssoc, lookupAssoc, h, ih]

theorem lookupAssoc_insertAssoc_ne {β : Type} (l : List (String × β))
    (k k' : String) (v : β) (hne : k' ≠ k) :
    lookupAssoc (insertAssoc l k v) k' = lookupAssoc l k' := by
  induction l with
  | nil =>
    simp only [insertAssoc, lookupAssoc]
    rw [if_neg (fun h => hne h.symm)]
  | cons p ps ih =>
    by_cases h : p.1 = k
    · simp only [insertAssoc, if_pos h, lookupAssoc]
      rw [if_neg (fun h2 => hne h2.symm), if_neg (h ▸ fun h2 => hne h2.symm)]
    · simp only [insertAssoc, if_neg h, lookupAssoc, ih]

/-! ### C1: the translation fallback chain -/

/-- C1.  Translation resolution follows the fallback chain
cache → DeepL → MyMemory → sentinel, short-circuiting on first success:
a cached key is answered from the cache with zero provider calls and an
unchanged cache; for an uncached key, a successful primary answer is
returned after one primary call and no secondary call, a failing
primary (exception, `None`, or empty result, all modelled as a miss of
`optNonempty`) falls through to the secondary whose successful output
becomes the result, and if both fail the sentinel `"X"` is the result;
in every branch the produced result is in the returned cache under the
key, so a second resolution of the same key makes zero provider calls
and returns the same value. -/
theorem translation_fallback_chain (k o lang : String)
    (c : List (String × String)) (p s : Provider) :
    (∀ v, lookupAssoc c k = some v →
      get_translation k o lang c p s = (v, c, 0, 0)) ∧
    (lookupAssoc c k = none →
      ∀ t, optNonempty (p o lang TARGET_LANG) = some t →
        get_translation k o lang c p s = (t, insertAssoc c k t, 1, 0)) ∧
    (lookupAssoc c k = none →
      optNonempty (p o lang TARGET_LANG) = none →
      ∀ t, optNonempty (s o lang TARGET_LANG) = some t →
        get_translation k o lang c p s = (t, insertAssoc c k t, 1, 1)) ∧
    (lookupAssoc c k = none →
      optNonempty (p o lang TARGET_LANG) = none →
      optNonempty (s o lang TARGET_LANG) = none →
        get_translation k o lang c p s = ("X", insertAssoc c k "X", 1, 1)) ∧
    lookupAssoc (get_translation k o lang c p s).2.1 k =
      some (get_translation k o lang c p s).1 ∧
    get_translation k o lang (get_translation k o lang c p s).2.1 p s =
      ((get_translation k o lang c p s).1,
       (get_translation k o lang c p s).2.1, 0, 0) := by
  refine ⟨?_, ?_, ?_, ?_, ?_, ?_⟩
  · intro v hv; simp [get_translation, hv]
  · intro h0 t hp; simp [get_translation, h0, hp]
  · intro h0 hp t hs; simp [get_translation, h0, hp, hs]
  · intro h0 hp hs; simp [get_translation, h0, hp, hs]
  · rcases h0 : lookupAssoc c k with _ | v
    · rcases hp : optNonempty (p o lang TARGET_LANG) with _ | t
      · rcases hs : optNonempty (s o lang TARGET_LANG) with _ | t
        · simp [get_translation, h0, hp, hs, lookupAssoc_insertAssoc_self]
        · simp [get_translation, h0, hp, hs, lookupAssoc_insertAssoc_self]
      · simp [get_translation, h0, hp, lookupAssoc_insertAssoc_self]
    · simp [get_translation, h0]
  · rcases h0 : lookupAssoc c k with _ | v
    · rcases hp : optNonempty (p o lang TARGET_LANG) with _ | t
      · rcases hs : optNonempty (s o lang TARGET_LANG) with _ | t
        · simp [get_translation, h0, hp, hs, lookupAssoc_insertAssoc_self]
        · simp [get_translation, h0, hp, hs, lookupAssoc_insertAssoc_self]
      · simp [get_translation, h0, hp, lookupAssoc_insertAssoc_self]
    · simp [get_translation, h0]

/-- Witness for C1: with an empty cache, a failing primary provider and
a secondary provider answering `"perro"`, resolving `"hund"` yields the
secondary's output, one call to each provider, and a cache holding the
key. -/
theorem translation_fallback_chain_witness :
    get_translation "hund" "Hund" "de" [] (fun _ _ _ => none)
      (fun _ _ _ => some "perro") = ("perro", [("hund", "perro")], 1, 1) := by
  have h := (translation_fallback_chain "hund" "Hund" "de" []
    (fun _ _ _ => none) (fun _ _ _ => some "perro")).2.2.1
    (by decide) (by decide) "perro" (by decide)
  simpa using h

/-! ### C3: the aggregation count invariant -/

theorem sumCounts_nil : sumCounts [] = 0 := rfl

theorem sumCounts_cons (p : String × WEntry) (ps : WordsData) :
    sumCounts (p :: ps) = p.2.count + sumCounts ps := by
  simp [sumCounts]

theorem sumCounts_addWord (m : WordsData) (n o : String) :
    sumCounts (addWord m n o) = sumCounts m + 1 := by
  induction m with
  | nil => simp [addWord, sumCounts]
  | cons p ps ih =>
    by_cases h : p.1 = n
    · simp only [addWord, if_pos h, sumCounts_cons]
      omega
    · simp only [addWord, if_neg h, sumCounts_cons, ih]
      omega

theorem sumCounts_countStep_le (lang : String) (ig : IgnoreSpec)
    (m : WordsData) (t : String) :
    sumCounts (countStep lang ig m t) ≤ sumCounts m + 1 := by
  simp only [countStep]
  split_ifs <;> simp [sumCounts_addWord]

theorem sumCounts_foldl_le (lang : String) (ig : IgnoreSpec) :
    ∀ (ts : List String) (m : WordsData),
      sumCounts (ts.foldl (countStep lang ig) m) ≤ sumCounts m + ts.length := by
  intro ts
  induction ts with
  | nil => intro m; simp
  | cons t ts ih =>
    intro m
    have h1 := ih (countStep lang ig m t)
    have h2 := sumCounts_countStep_le lang ig m t
    simp only [List.foldl_cons, List.length_cons]
    omega

/-- C3.  For every input text, language and ignore spec, the sum of the
counts in the aggregation map of `count_words` equals the returned
considered-token count, and the considered-token count is at most the
raw pre-filter token count. -/
theorem aggregation_count_invariant (text lang : String) (ig : IgnoreSpec) :
    sumCounts (count_words text lang ig).1 = (count_words text lang ig).2.2 ∧
    (count_words text lang ig).2.2 ≤ (count_words text lang ig).2.1 := by
  refine ⟨rfl, ?_⟩
  have h := sumCounts_foldl_le lang ig (tokenize text) []
  simpa [count_words, sumCounts_nil] using h

/-! ### C5: German normalization -/

/-- C5.  For the `"de"` language tag, `normalize_word` applies the
ordered substitution table ä→ae, ö→oe, ü→ue, Ä→Ae, Ö→Oe, Ü→Ue, ß→ss
and then lowercases, so that `"Maßstäbe"` and `"massstaebe"` normalize
identically; for every other supported language tag, only trimming and
lowercasing are applied, with no character substitution. -/
theorem german_normalization :
    (∀ lang word, lang ∈ SUPPORTED_LANGS → lang ≠ "de" →
      normalize_word word lang = pyLower (pyStrip word)) ∧
    normalize_word "Maßstäbe" "de" = normalize_word "massstaebe" "de" ∧
    (∀ word, normalize_word word "de" =
      if pyStrip word = "" then ""
      else pyLower ⟨(pyStrip word).data.flatMap deSubst⟩) := by
  refine ⟨?_, by decide, ?_⟩
  · intro lang word _ hne
    simp only [normalize_word]
    by_cases h : pyStrip word = ""
    · rw [h]
      simp only [if_pos rfl]
      rfl
    · rw [if_neg h, if_neg hne]
  · intro word
    simp only [normalize_word]
    by_cases h : pyStrip word = ""
    · rw [h]
      simp
    · rw [if_neg h, if_neg h]
      simp

/-- Witness for C5: for language `"en"`, normalizing `" Run "` is
exactly trimming followed by lowercasing. -/
theorem german_normalization_witness :
    normalize_word " Run " "en" = pyLower (pyStrip " Run ") :=
  german_normalization.1 "en" " Run " (by decide) (by decide)

/-! ### C6: ignore union semantics -/

theorem countStep_ignored (lang : String) (ig : IgnoreSpec) (t : String)
    (h : normalize_word t lang ∈ ig.normalized ∨ pyLower t ∈ ig.originals) :
    ∀ m, countStep lang ig m t = m := by
  intro m
  simp only [countStep]
  split_ifs with h1 h2 h3 h4
  · rfl
  · rfl
  · rfl
  · rfl
  · exfalso
    rcases h with h | h
    · exact h3 (by simpa using h)
    · exact h4 (by simpa using h)

/-- C6.  A token whose normalized key is in the ignore spec's
normalized set, or whose lowercase literal form is in the ignore spec's
originals set (either match alone suffices), contributes nothing to the
aggregation: the token loop of `count_words` produces the same map with
or without that token, from any starting state. -/
theorem ignore_union_semantics (lang : String) (ig : IgnoreSpec) (t : String)
    (h : normalize_word t lang ∈ ig.normalized ∨ pyLower t ∈ ig.originals) :
    ∀ (xs ys : List String) (init : WordsData),
      (xs ++ t :: ys).foldl (countStep lang ig) init =
      (xs ++ ys).foldl (countStep lang ig) init := by
  intro xs ys init
  rw [List.foldl_append, List.foldl_append, List.foldl_cons,
    countStep_ignored lang ig t h]

/-- Witness for C6: with `"haus"` in the normalized ignore set, the
token `"Haus"` between `"der"` and `"Hund"` leaves the aggregation of
the remaining tokens unchanged. -/
theorem ignore_union_semantics_witness :
    (["der", "Haus", "Hund"].foldl
      (countStep "de" ⟨["haus"], []⟩) []) =
    (["der", "Hund"].foldl (countStep "de" ⟨["haus"], []⟩) []) := by
  have h := ignore_union_semantics "de" ⟨["haus"], []⟩ "Haus"
    (Or.inl (by decide)) ["der"] ["Hund"] []
  simpa using h

/-! ### C7: first-seen spelling preservation -/

theorem addWord_lookup_preserve (m : WordsData) (n o k : String) (e : WEntry)
    (h : lookupAssoc m k = some e) :
    ∃ e2, lookupAssoc (addWord m n o) k = some e2 ∧
      e2.original = e.original ∧ e.count ≤ e2.count := by
  induction m with
  | nil => simp [lookupAssoc] at h
  | cons p ps ih =>
    simp only [addWord]
    by_cases hn : p.1 = n
    · rw [if_pos hn]
      simp only [lookupAssoc] at h ⊢
      by_cases hk : p.1 = k
      · rw [if_pos hk] at h
        rw [if_pos hk]
        obtain rfl : p.2 = e := Option.some.inj h
        exact ⟨_, rfl, rfl, Nat.le_succ _⟩
      · rw [if_neg hk] at h
        rw [if_neg hk]
        exact ⟨e, h, rfl, le_rfl⟩
    · rw [if_neg hn]
      simp only [lookupAssoc] at h ⊢
      by_cases hk : p.1 = k
      · rw [if_pos hk] at h
        rw [if_pos hk]
        obtain rfl : p.2 = e := Option.some.inj h
        exact ⟨_, rfl, rfl, le_rfl⟩
      · rw [if_neg hk] at h
        rw [if_neg hk]
        exact ih h

theorem addWord_lookup_new (m : WordsData) (n o : String)
    (h : lookupAssoc m n = none) :
    lookupAssoc (addWord m n o) n = some ⟨o, 1⟩ := by
  induction m with
  | nil => simp [addWord, lookupAssoc]
  | cons p ps ih =>
    by_cases hn : p.1 = n
    · simp [lookupAssoc, if_pos hn] at h
    · simp only [lookupAssoc, if_neg hn] at h
      simp [addWord, if_neg hn, lookupAssoc, hn, ih h]

theorem countStep_lookup_preserve (lang : String) (ig : IgnoreSpec)
    (m : WordsData) (t k : String) (e : WEntry)
    (h : lookupAssoc m k = some e) :
    ∃ e2, lookupAssoc (countStep lang ig m t) k = some e2 ∧
      e2.original = e.original ∧ e.count ≤ e2.count := by
  simp only [countStep]
  split_ifs
  · exact ⟨e, h, rfl, le_rfl⟩
  · exact ⟨e, h, rfl, le_rfl⟩
  · exact ⟨e, h, rfl, le_rfl⟩
  · exact ⟨e, h, rfl, le_rfl⟩
  · exact addWord_lookup_preserve m _ t k e h

/-- C7.  The `original` field of an aggregation entry is fixed at first
insertion and never overwritten: (1) once a key maps to an entry, any
further tokens only possibly increase its count, never change its
original spelling; (2) a retained token whose key is absent from the
map is inserted with itself as the original spelling and count 1. -/
theorem first_seen_spelling (lang : String) (ig : IgnoreSpec) :
    (∀ (m : WordsData) (ts : List String) (k : String) (e : WEntry),
      lookupAssoc m k = some e →
      ∃ e2, lookupAssoc (ts.foldl (countStep lang ig) m) k = some e2 ∧
        e2.original = e.original ∧ e.count ≤ e2.count) ∧
    (∀ (m : WordsData) (t : String),
      contains_number t = false →
      normalize_word t lang ≠ "" →
      ig.normalized.contains (normalize_word t lang) = false →
      ig.originals.contains (pyLower t) = false →
      lookupAssoc m (normalize_word t lang) = none →
      lookupAssoc (countStep lang ig m t) (normalize_word t lang) =
        some ⟨t, 1⟩) := by
  constructor
  · intro m ts
    induction ts generalizing m with
    | nil => intro k e h; exact ⟨e, h, rfl, le_rfl⟩
    | cons t ts ih =>
      intro k e h
      obtain ⟨e1, h1, h2, h3⟩ := countStep_lookup_preserve lang ig m t k e h
      obtain ⟨e2, g1, g2, g3⟩ := ih (countStep lang ig m t) k e1 h1
      exact ⟨e2, by simpa using g1, g2.trans h2, h3.trans g3⟩
  · intro m t h1 h2 h3 h4 h5
    simp only [countStep]
    rw [if_neg (by simp [h1]), if_neg h2, if_neg (by simpa using h3),
      if_neg (by simpa using h4)]
    exact addWord_lookup_new m _ t h5

/-- Witness for C7: after `"Run"` is first seen, aggregating a further
`"run"` keeps the stored original spelling `"Run"` while the count only
grows. -/
theorem first_seen_spelling_witness :
    ∃ e2, lookupAssoc ((["run"].foldl (countStep "en" ⟨[], []⟩)
        [("run", ⟨"Run", 1⟩)])) "run" = some e2 ∧
      e2.original = "Run" ∧ 1 ≤ e2.count :=
  (first_seen_spelling "en" ⟨[], []⟩).1 [("run", ⟨"Run", 1⟩)] ["run"] "run"
    ⟨"Run", 1⟩ (by decide)

/-! ### C4: no-translation mode -/

theorem cacheLookup_ensureLang (c : Cache) (lang L k : String) :
    cacheLookup (ensureLang c lang) L k = cacheLookup c L k := by
  unfold ensureLang
  rcases h : lookupAssoc c lang with _ | slice
  · unfold cacheLookup
    by_cases hL : L = lang
    · subst hL
      rw [lookupAssoc_insertAssoc_self, h]
      simp [lookupAssoc]
    · rw [lookupAssoc_insertAssoc_ne c lang L [] (fun hh => hL hh)]
  · rfl

/-- C4.  Whenever the skip-translation flag is set or the source
language is the fixed target language `"es"`, the translation phase of
`main` gives every aggregated entry the placeholder meaning `"-"`,
makes zero primary and zero secondary provider calls, performs no cache
save, leaves every cached translation unchanged, and keeps the
aggregated keys and entries themselves intact. -/
theorem no_translation_mode (flag : Bool) (lang : String) (words : WordsData)
    (cache : Cache) (p s : Provider)
    (h : flag = true ∨ lang = "es") :
    (∀ q ∈ (translatePhase flag lang words cache p s).1, q.2.2 = "-") ∧
    (translatePhase flag lang words cache p s).2.2.1 = false ∧
    (translatePhase flag lang words cache p s).2.2.2.1 = 0 ∧
    (translatePhase flag lang words cache p s).2.2.2.2 = 0 ∧
    (∀ L k, cacheLookup (translatePhase flag lang words cache p s).2.1 L k =
      cacheLookup cache L k) ∧
    (translatePhase flag lang words cache p s).1.map
      (fun q => (q.1, q.2.1)) = words := by
  have hmode : (flag || lang = "es") = true := by
    rcases h with h | h
    · simp [h]
    · simp [h]
  simp only [translatePhase, hmode, if_pos rfl]
  refine ⟨?_, rfl, rfl, rfl, ?_, ?_⟩
  · intro q hq
    obtain ⟨q0, hq0, rfl⟩ := List.mem_map.mp hq
    rfl
  · intro L k
    exact cacheLookup_ensureLang cache lang L k
  · have hcomp : ((fun q : String × WEntry × String => (q.1, q.2.1)) ∘
        fun p : String × WEntry => (p.1, p.2, "-")) = fun p => p := by
      funext p
      rfl
    simp only [if_true]
    rw [List.map_map, hcomp]
    simp

/-- Witness for C4: in no-translation mode with a one-entry
aggregation, the entry's meaning is the placeholder, no save happens,
no provider is called, and a cached value elsewhere is untouched. -/
theorem no_translation_mode_witness :
    (translatePhase true "de" [("hund", ⟨"Hund", 2⟩)]
      [("en", [("dog", "perro")])] (fun _ _ _ => some "perro")
      (fun _ _ _ => some "perro")).2.2.1 = false ∧
    cacheLookup (translatePhase true "de" [("hund", ⟨"Hund", 2⟩)]
      [("en", [("dog", "perro")])] (fun _ _ _ => some "perro")
      (fun _ _ _ => some "perro")).2.1 "en" "dog" =
      cacheLookup [("en", [("dog", "perro")])] "en" "dog" := by
  have h := no_translation_mode true "de" [("hund", ⟨"Hund", 2⟩)]
    [("en", [("dog", "perro")])] (fun _ _ _ => some "perro")
    (fun _ _ _ => some "perro") (Or.inl rfl)
  exact ⟨h.2.1, h.2.2.2.2.1 "en" "dog"⟩

/-! ### C8: cache resilience -/

/-- C8.  `load_cache` always delivers a dict and never propagates an
error: a missing file, a file whose content fails to parse, and a file
parsing to a non-dict value all yield the empty dict; `save_cache`
turns a failed write into a warning only, and the run's computed
entries are delivered unchanged regardless of the save outcome. -/
theorem cache_resilience (file : Option String)
    (jsonLoad : String → Except String JVal) :
    (∃ fields, load_cache file jsonLoad = .jobj fields) ∧
    (load_cache none jsonLoad = .jobj []) ∧
    (∀ str e, jsonLoad str = .error e →
      load_cache (some str) jsonLoad = .jobj []) ∧
    (∀ str v, jsonLoad str = .ok v → (∀ fields, v ≠ .jobj fields) →
      load_cache (some str) jsonLoad = .jobj []) ∧
    (∀ e, save_cache (.error e) = some e) ∧
    save_cache (.ok ()) = none ∧
    (∀ (entries : List (String × Nat × String)) (w : Except String Unit),
      (deliverResults entries w).1 = entries) := by
  refine ⟨?_, rfl, ?_, ?_, fun _ => rfl, rfl, fun _ _ => rfl⟩
  · rcases file with _ | str
    · exact ⟨[], rfl⟩
    · rcases h : jsonLoad str with e | v
      · exact ⟨[], by simp [load_cache, h]⟩
      · cases v with
        | jobj fields => exact ⟨fields, by simp [load_cache, h]⟩
        | jnull => exact ⟨[], by simp [load_cache, h]⟩
        | jbool b => exact ⟨[], by simp [load_cache, h]⟩
        | jnum n => exact ⟨[], by simp [load_cache, h]⟩
        | jstr s => exact ⟨[], by simp [load_cache, h]⟩
        | jarr xs => exact ⟨[], by simp [load_cache, h]⟩
  · intro str e he
    simp [load_cache, he]
  · intro str v hv hnd
    cases v with
    | jobj fields => exact absurd rfl (hnd fields)
    | jnull => simp [load_cache, hv]
    | jbool b => simp [load_cache, hv]
    | jnum n => simp [load_cache, hv]
    | jstr s => simp [load_cache, hv]
    | jarr xs => simp [load_cache, hv]

/-- Witness for C8: a file whose content fails to parse loads as the
empty dict. -/
theorem cache_resilience_witness :
    load_cache (some "junk") (fun _ => .error "bad json") = .jobj [] :=
  (cache_resilience (some "junk") (fun _ => .error "bad json")).2.2.1
    "junk" "bad json" rfl

/-! ### C9: output ordering -/

theorem charListLe_trans : ∀ as bs cs : List Char,
    charListLe as bs = true → charListLe bs cs = true →
    charListLe as cs = true := by
  intro as
  induction as with
  | nil => intro bs cs _ _; rfl
  | cons a as ih =>
    intro bs cs h1 h2
    cases bs with
    | nil => simp [charListLe] at h1
    | cons b bs =>
      cases cs with
      | nil => simp [charListLe] at h2
      | cons c cs =>
        simp only [charListLe] at h1 h2 ⊢
        by_cases hab : a < b
        · by_cases hbc : b < c
          · rw [if_pos (lt_trans hab hbc)]
          · by_cases hcb : c < b
            · rw [if_neg hbc, if_pos hcb] at h2
              simp at h2
            · rw [if_pos (lt_of_lt_of_le hab (le_of_not_lt hcb))]
        · by_cases hba : b < a
          · rw [if_neg hab, if_pos hba] at h1
            simp at h1
          · have hab2 : a = b := le_antisymm (le_of_not_lt hba) (le_of_not_lt hab)
            subst hab2
            rw [if_neg (lt_irrefl a), if_neg (lt_irrefl a)] at h1
            by_cases hac : a < c
            · rw [if_pos hac]
            · by_cases hca : c < a
              · rw [if_neg hac, if_pos hca] at h2
                simp at h2
              · rw [if_neg hac, if_neg hca] at h2 ⊢
                exact ih bs cs h1 h2

theorem charListLe_total : ∀ as bs : List Char,
    (charListLe as bs || charListLe bs as) = true := by
  intro as
  induction as with
  | nil => intro bs; rfl
  | cons a as ih =>
    intro bs
    cases bs with
    | nil => rfl
    | cons b bs =>
      by_cases h1 : a < b
      · simp [charListLe, h1]
      · by_cases h2 : b < a
        · simp [charListLe, h1, h2]
        · have ht := ih bs
          simp only [charListLe, if_neg h1, if_neg h2]
          simpa using ht

theorem entryLE_trans (a b c : String × Nat × String)
    (h1 : entryLE a b = true) (h2 : entryLE b c = true) :
    entryLE a c = true := by
  unfold entryLE pyStrLe at h1 h2 ⊢
  by_cases hba : b.2.1 < a.2.1
  · by_cases hcb : c.2.1 < b.2.1
    · rw [if_pos (lt_trans hcb hba)]
    · by_cases hbc : b.2.1 < c.2.1
      · rw [if_neg hcb, if_pos hbc] at h2
        simp at h2
      · rw [if_pos (by omega : c.2.1 < a.2.1)]
  · by_cases hab : a.2.1 < b.2.1
    · rw [if_neg hba, if_pos hab] at h1
      simp at h1
    · rw [if_neg hba, if_neg hab] at h1
      by_cases hcb : c.2.1 < b.2.1
      · rw [if_pos (by omega : c.2.1 < a.2.1)]
      · by_cases hbc : b.2.1 < c.2.1
        · rw [if_neg hcb, if_pos hbc] at h2
          simp at h2
        · rw [if_neg hcb, if_neg hbc] at h2
          rw [if_neg (by omega : ¬c.2.1 < a.2.1),
            if_neg (by omega : ¬a.2.1 < c.2.1)]
          exact charListLe_trans _ _ _ h1 h2

theorem entryLE_total (a b : String × Nat × String) :
    (entryLE a b || entryLE b a) = true := by
  by_cases h1 : b.2.1 < a.2.1
  · simp [entryLE, h1]
  · by_cases h2 : a.2.1 < b.2.1
    · simp [entryLE, h1, h2]
    · have ht := charListLe_total (pyLower a.1).data (pyLower b.1).data
      simp only [entryLE, pyStrLe, if_neg h1, if_neg h2]
      simpa using ht

/-- C9.  The entry list produced by `sortEntries` is ordered as handed
to the output collaborators: for every pair of adjacent entries, either
the first has a strictly greater count, or the counts are equal and the
first's lowercased original spelling is less than or equal to the
second's (code-point lexicographic order, as Python compares
strings). -/
theorem output_ordering (entries : List (String × Nat × String)) :
    List.Chain' (fun a b => b.2.1 < a.2.1 ∨
      (a.2.1 = b.2.1 ∧ pyStrLe (pyLower a.1) (pyLower b.1) = true))
      (sortEntries entries) := by
  have hs := @List.sorted_mergeSort _ entryLE
    (fun a b c => entryLE_trans a b c) entryLE_total entries
  refine List.Pairwise.chain' (List.Pairwise.imp ?_ hs)
  intro a b hab
  unfold entryLE at hab
  by_cases h1 : b.2.1 < a.2.1
  · exact Or.inl h1
  · rw [if_neg h1] at hab
    by_cases h2 : a.2.1 < b.2.1
    · rw [if_pos h2] at hab
      exact absurd hab (by simp)
    · rw [if_neg h2] at hab
      exact Or.inr ⟨by omega, hab⟩

/-! ### Character-level facts about lowercasing and the substitution
table, established by evaluation over the finite tables -/

theorem lowerMap_value_not_key :
    ∀ p ∈ lowerMap, lowerMap.find? (fun q => q.1 == p.2) = none := by decide

theorem lowerMap_nonspace :
    ∀ p ∈ lowerMap, isSpaceChar p.1 = false ∧ isSpaceChar p.2 = false := by
  decide

theorem lowerMap_deSubst :
    ∀ p ∈ lowerMap, p.1 = 'Ä' ∨ p.1 = 'Ö' ∨ p.1 = 'Ü' ∨ p.1 = 'ẞ' ∨
      deSubst p.2 = [p.2] := by decide

theorem pyLowerChar_idem (c : Char) :
    pyLowerChar (pyLowerChar c) = pyLowerChar c := by
  cases h : lowerMap.find? (fun p => p.1 == c) with
  | none =>
    have e : pyLowerChar c = c := by simp [pyLowerChar, h]
    rw [e, e]
  | some p =>
    have hmem : p ∈ lowerMap := List.mem_of_find?_eq_some h
    have e : pyLowerChar c = p.2 := by simp [pyLowerChar, h]
    have e2 : pyLowerChar p.2 = p.2 := by
      simp [pyLowerChar, lowerMap_value_not_key p hmem]
    rw [e, e2]

theorem isSpaceChar_pyLowerChar (c : Char) :
    isSpaceChar (pyLowerChar c) = isSpaceChar c := by
  cases h : lowerMap.find? (fun p => p.1 == c) with
  | none =>
    have e : pyLowerChar c = c := by simp [pyLowerChar, h]
    rw [e]
  | some p =>
    have hmem : p ∈ lowerMap := List.mem_of_find?_eq_some h
    have hpa : p.1 = c := by simpa using List.find?_some h
    have e : pyLowerChar c = p.2 := by simp [pyLowerChar, h]
    rw [e, (lowerMap_nonspace p hmem).2, ← hpa, (lowerMap_nonspace p hmem).1]

theorem mapLower_idem : ∀ l : List Char,
    (l.map pyLowerChar).map pyLowerChar = l.map pyLowerChar := by
  intro l
  induction l with
  | nil => rfl
  | cons a t ih => simp [pyLowerChar_idem, ih]

theorem pyLower_idem (s : String) : pyLower (pyLower s) = pyLower s := by
  show (⟨(s.data.map pyLowerChar).map pyLowerChar⟩ : String) = _
  rw [mapLower_idem]
  rfl

theorem deSubst_nonspace (c : Char) (h : isSpaceChar c = false) :
    deSubst c ≠ [] ∧ ∀ x ∈ deSubst c, isSpaceChar x = false := by
  unfold deSubst
  split_ifs
  · exact ⟨by simp, by decide⟩
  · exact ⟨by simp, by decide⟩
  · exact ⟨by simp, by decide⟩
  · exact ⟨by simp, by decide⟩
  · exact ⟨by simp, by decide⟩
  · exact ⟨by simp, by decide⟩
  · exact ⟨by simp, by decide⟩
  · exact ⟨by simp, by simpa using h⟩

/-- The seven source characters of the `"de"` substitution table. -/
def deSubstSrcs : List Char := ['ä','ö','ü','Ä','Ö','Ü','ß']

theorem deSubst_default (a : Char) (h : a ∉ deSubstSrcs) : deSubst a = [a] := by
  unfold deSubst
  split_ifs with h1 h2 h3 h4 h5 h6 h7
  · exact absurd (by rw [h1]; decide) h
  · exact absurd (by rw [h2]; decide) h
  · exact absurd (by rw [h3]; decide) h
  · exact absurd (by rw [h4]; decide) h
  · exact absurd (by rw [h5]; decide) h
  · exact absurd (by rw [h6]; decide) h
  · exact absurd (by rw [h7]; decide) h
  · rfl

theorem deSubstSrcs_after :
    ∀ a ∈ deSubstSrcs, ∀ d ∈ deSubst a,
      deSubst (pyLowerChar d) = [pyLowerChar d] := by decide

theorem deSubst_after (a : Char) (ha : a ≠ 'ẞ') :
    ∀ d ∈ deSubst a, deSubst (pyLowerChar d) = [pyLowerChar d] := by
  by_cases hsrc : a ∈ deSubstSrcs
  · exact deSubstSrcs_after a hsrc
  · intro d hd
    rw [deSubst_default a hsrc] at hd
    obtain rfl : d = a := by simpa using hd
    cases hf : lowerMap.find? (fun p => p.1 == d) with
    | none =>
      have e : pyLowerChar d = d := by simp [pyLowerChar, hf]
      rw [e]
      exact deSubst_default d hsrc
    | some p =>
      have hmem : p ∈ lowerMap := List.mem_of_find?_eq_some hf
      have hpa : p.1 = d := by simpa using List.find?_some hf
      have e : pyLowerChar d = p.2 := by simp [pyLowerChar, hf]
      rw [e]
      rcases lowerMap_deSubst p hmem with h | h | h | h | h
      · exact absurd (by rw [← hpa, h]; decide) hsrc
      · exact absurd (by rw [← hpa, h]; decide) hsrc
      · exact absurd (by rw [← hpa, h]; decide) hsrc
      · exact absurd (by rw [← hpa, h]) ha
      · exact h

/-! ### Facts about stripping -/

theorem dropWhile_length_le (p : Char → Bool) :
    ∀ l : List Char, (List.dropWhile p l).length ≤ l.length := by
  intro l
  induction l with
  | nil => simp
  | cons a t ih =>
    rw [List.dropWhile_cons]
    by_cases h : p a = true
    · rw [if_pos h]
      exact ih.trans (Nat.le_succ _)
    · rw [if_neg h]

theorem noLead_head (p : Char → Bool) (a : Char) (t : List Char)
    (h : List.dropWhile p (a :: t) = a :: t) : p a = false := by
  by_cases hx : p a = true
  · rw [List.dropWhile_cons, if_pos hx] at h
    have hlen := congrArg List.length h
    have hle := dropWhile_length_le p t
    simp at hlen
    omega
  · simpa using hx

theorem noLead_cons (p : Char → Bool) (a : Char) (t : List Char)
    (h : p a = false) : List.dropWhile p (a :: t) = a :: t := by
  rw [List.dropWhile_cons, if_neg (by simp [h])]

theorem noLead_of_prefix (p : Char → Bool) (l2 l : List Char)
    (hp : l2 <+: l) (h : List.dropWhile p l = l) :
    List.dropWhile p l2 = l2 := by
  cases l2 with
  | nil => rfl
  | cons x xs =>
    obtain ⟨t, ht⟩ := hp
    rw [← ht] at h
    have hx : p x = false := noLead_head p x (xs ++ t) h
    exact noLead_cons p x xs hx

theorem noTrail_iff (p : Char → Bool) (l : List Char) :
    List.rdropWhile p l = l ↔ List.dropWhile p l.reverse = l.reverse := by
  rw [List.rdropWhile, List.reverse_eq_iff]

theorem pyStripL_noLead (l : List Char) :
    List.dropWhile isSpaceChar (pyStripL l) = pyStripL l := by
  unfold pyStripL
  exact noLead_of_prefix isSpaceChar
    (List.rdropWhile isSpaceChar (List.dropWhile isSpaceChar l))
    (List.dropWhile isSpaceChar l)
    ( List.rdropWhile_prefix isSpaceChar (List.dropWhile isSpaceChar l))
    (List.dropWhile_idempotent isSpaceChar l)

theorem pyStripL_noTrail (l : List Char) :
    List.rdropWhile isSpaceChar (pyStripL l) = pyStripL l := by
  unfold pyStripL
  apply List.rdropWhile_idempotent

theorem pyStripL_eq_self (l : List Char)
    (h1 : List.dropWhile isSpaceChar l = l)
    (h2 : List.rdropWhile isSpaceChar l = l) : pyStripL l = l := by
  unfold pyStripL
  rw [h1, h2]

theorem pyStripL_sublist (l : List Char) : List.Sublist (pyStripL l) l := by
  unfold pyStripL
  exact List.Sublist.trans
    (List.IsPrefix.sublist
      ( List.rdropWhile_prefix isSpaceChar (List.dropWhile isSpaceChar l)))
    (List.IsSuffix.sublist (List.dropWhile_suffix isSpaceChar))

/-! ### Preservation of stripped-ness by substitution and lowering -/

theorem noLead_flatMap_map (g : Char → List Char)
    (hg : ∀ c, isSpaceChar c = false →
      g c ≠ [] ∧ ∀ x ∈ g c, isSpaceChar x = false)
    (l : List Char) (h : List.dropWhile isSpaceChar l = l) :
    List.dropWhile isSpaceChar ((l.flatMap g).map pyLowerChar) =
      (l.flatMap g).map pyLowerChar := by
  cases l with
  | nil => rfl
  | cons a t =>
    have ha : isSpaceChar a = false := noLead_head _ a t h
    obtain ⟨hne, hall⟩ := hg a ha
    cases hd : g a with
    | nil => exact absurd hd hne
    | cons d ds =>
      have hdm : d ∈ g a := by rw [hd]; exact List.mem_cons_self d ds
      rw [List.flatMap_cons, hd, List.cons_append, List.map_cons]
      exact noLead_cons _ _ _
        (by rw [isSpaceChar_pyLowerChar]; exact hall d hdm)

theorem noTrail_flatMap_map (g : Char → List Char)
    (hg : ∀ c, isSpaceChar c = false →
      g c ≠ [] ∧ ∀ x ∈ g c, isSpaceChar x = false)
    (l : List Char) (h : List.rdropWhile isSpaceChar l = l) :
    List.rdropWhile isSpaceChar ((l.flatMap g).map pyLowerChar) =
      (l.flatMap g).map pyLowerChar := by
  rw [noTrail_iff] at h ⊢
  have hrev : ((l.flatMap g).map pyLowerChar).reverse =
      ((l.reverse.flatMap (List.reverse ∘ g)).map pyLowerChar) := by
    rw [← List.map_reverse, List.reverse_flatMap]
  rw [hrev]
  refine noLead_flatMap_map (List.reverse ∘ g) ?_ l.reverse h
  intro c hc
  obtain ⟨hne, hall⟩ := hg c hc
  refine ⟨?_, ?_⟩
  · simp only [Function.comp]
    intro hh
    exact hne (by simpa using hh)
  · intro x hx
    exact hall x (by simpa using hx)

theorem noLead_map (l : List Char)
    (h : List.dropWhile isSpaceChar l = l) :
    List.dropWhile isSpaceChar (l.map pyLowerChar) = l.map pyLowerChar := by
  cases l with
  | nil => rfl
  | cons a t =>
    have ha : isSpaceChar a = false := noLead_head _ a t h
    rw [List.map_cons]
    exact noLead_cons _ _ _ (by rw [isSpaceChar_pyLowerChar]; exact ha)

theorem noTrail_map (l : List Char)
    (h : List.rdropWhile isSpaceChar l = l) :
    List.rdropWhile isSpaceChar (l.map pyLowerChar) = l.map pyLowerChar := by
  rw [noTrail_iff] at h ⊢
  rw [← List.map_reverse]
  exact noLead_map l.reverse h

/-! ### Pointwise-identity lemmas and unfolding equations for
`normalize_word` -/

theorem flatMap_eq_self (l : List Char) (g : Char → List Char)
    (h : ∀ x ∈ l, g x = [x]) : l.flatMap g = l := by
  induction l with
  | nil => rfl
  | cons a t ih =>
    rw [List.flatMap_cons, h a (List.mem_cons_self a t),
      ih (fun x hx => h x (List.mem_cons_of_mem a hx))]
    rfl

theorem map_eq_self (l : List Char) (f : Char → Char)
    (h : ∀ x ∈ l, f x = x) : l.map f = l := by
  induction l with
  | nil => rfl
  | cons a t ih =>
    rw [List.map_cons, h a (List.mem_cons_self a t),
      ih (fun x hx => h x (List.mem_cons_of_mem a hx))]

theorem normalize_word_de (w : String) :
    normalize_word w "de" =
      if pyStrip w = "" then ""
      else ⟨((pyStrip w).data.flatMap deSubst).map pyLowerChar⟩ := by
  simp only [normalize_word]
  by_cases h : pyStrip w = ""
  · rw [if_pos h, if_pos h]
  · rw [if_neg h, if_neg h]
    rfl

theorem normalize_word_other (w lang : String) (h : lang ≠ "de") :
    normalize_word w lang = pyLower (pyStrip w) := by
  simp only [normalize_word]
  by_cases h0 : pyStrip w = ""
  · rw [h0]
    simp only [if_pos rfl]
    rfl
  · rw [if_neg h0, if_neg h]

theorem deOutput_fixed (S : List Char) (hS : 'ẞ' ∉ S) :
    ∀ x ∈ (S.flatMap deSubst).map pyLowerChar,
      deSubst x = [x] ∧ pyLowerChar x = x := by
  intro x hx
  obtain ⟨d, hd, rfl⟩ := List.mem_map.mp hx
  obtain ⟨a, ha, hda⟩ := List.mem_flatMap.mp hd
  exact ⟨deSubst_after a (fun he => hS (he ▸ ha)) d hda, pyLowerChar_idem d⟩

/-! ### C2: idempotence of normalization -/

/-- Counterexample to C2 as stated: the capital sharp s `ẞ` is a word
character (so `"ẞ"` is a producible token), `"de"` is a supported
language, yet normalization is not idempotent on it — `"ẞ"` normalizes
to `"ß"` (the substitution table does not contain `ẞ`, and lowercasing
maps it to `ß` afterwards), while `"ß"` normalizes to `"ss"`. -/
theorem normalize_idempotent_counterexample :
    "ẞ" ∈ tokenize "ẞ" ∧ "de" ∈ SUPPORTED_LANGS ∧
    normalize_word "ẞ" "de" = "ß" ∧
    normalize_word (normalize_word "ẞ" "de") "de" ≠
      normalize_word "ẞ" "de" := by decide

/-- C2 (amended).  Normalization is idempotent for every supported
language and token, except that under `"de"` a token containing the
capital sharp s `ẞ` (U+1E9E) is excluded: for such tokens the first
pass leaves a `ß` (produced by lowercasing) that a second pass would
expand to `ss`.  For every other supported language the property holds
for all tokens unconditionally. -/
theorem normalize_idempotent_amended (lang w : String)
    (hlang : lang ∈ SUPPORTED_LANGS)
    (hde : lang = "de" → 'ẞ' ∉ w.data) :
    normalize_word (normalize_word w lang) lang = normalize_word w lang := by
  by_cases hl : lang = "de"
  · subst hl
    rw [normalize_word_de w]
    by_cases h0 : pyStrip w = ""
    · rw [if_pos h0]
      decide
    · rw [if_neg h0]
      have hSsub : 'ẞ' ∉ (pyStrip w).data := by
        intro hmem
        exact hde rfl ((pyStripL_sublist w.data).subset hmem)
      have hfix := deOutput_fixed (pyStrip w).data hSsub
      have hnl := noLead_flatMap_map deSubst deSubst_nonspace
        (pyStrip w).data (pyStripL_noLead w.data)
      have hnt := noTrail_flatMap_map deSubst deSubst_nonspace
        (pyStrip w).data (pyStripL_noTrail w.data)
      have hstrip : pyStrip
          (⟨((pyStrip w).data.flatMap deSubst).map pyLowerChar⟩ : String) =
          ⟨((pyStrip w).data.flatMap deSubst).map pyLowerChar⟩ := by
        show (⟨pyStripL (((pyStrip w).data.flatMap deSubst).map pyLowerChar)⟩ :
          String) = _
        rw [pyStripL_eq_self _ hnl hnt]
      rw [normalize_word_de, hstrip]
      by_cases hXe :
          (⟨((pyStrip w).data.flatMap deSubst).map pyLowerChar⟩ : String) = ""
      · rw [if_pos hXe, hXe]
      · rw [if_neg hXe]
        show (⟨((((pyStrip w).data.flatMap deSubst).map
          pyLowerChar).flatMap deSubst).map pyLowerChar⟩ : String) = _
        rw [flatMap_eq_self _ deSubst (fun x hx => (hfix x hx).1),
          map_eq_self _ pyLowerChar (fun x hx => (hfix x hx).2)]
  · rw [normalize_word_other w lang hl]
    have hnl := noLead_map (pyStripL w.data) (pyStripL_noLead w.data)
    have hnt := noTrail_map (pyStripL w.data) (pyStripL_noTrail w.data)
    have hstrip : pyStrip (pyLower (pyStrip w)) = pyLower (pyStrip w) := by
      show (⟨pyStripL ((pyStripL w.data).map pyLowerChar)⟩ : String) = _
      rw [pyStripL_eq_self _ hnl hnt]
      rfl
    rw [normalize_word_other _ lang hl, hstrip]
    show (⟨((pyStripL w.data).map pyLowerChar).map pyLowerChar⟩ : String) = _
    rw [mapLower_idem]
    rfl

/-- Witness for the amended C2: under `"de"`, normalizing
`"Maßstäbe"` (which contains `ß` but not `ẞ`) twice equals normalizing
it once. -/
theorem normalize_idempotent_amended_witness :
    normalize_word (normalize_word "Maßstäbe" "de") "de" =
      normalize_word "Maßstäbe" "de" :=
  normalize_idempotent_amended "de" "Maßstäbe" (by decide) (by decide)

/-! ### C10: the lowercase-key invariant -/

theorem pyLower_normalize (w lang : String) :
    pyLower (normalize_word w lang) = normalize_word w lang := by
  simp only [normalize_word]
  by_cases h : pyStrip w = ""
  · rw [if_pos h]
    rfl
  · rw [if_neg h]
    exact pyLower_idem _

theorem addWord_lookup_keys (m : WordsData) (n o k : String) (e : WEntry)
    (h : lookupAssoc (addWord m n o) k = some e) :
    k = n ∨ ∃ e2, lookupAssoc m k = some e2 := by
  induction m with
  | nil =>
    simp only [addWord, lookupAssoc] at h
    by_cases hk : n = k
    · exact Or.inl hk.symm
    · rw [if_neg hk] at h
      cases h
  | cons p ps ih =>
    simp only [addWord] at h
    by_cases hn : p.1 = n
    · rw [if_pos hn] at h
      simp only [lookupAssoc] at h
      by_cases hk : p.1 = k
      · exact Or.inl (hk ▸ hn)
      · rw [if_neg hk] at h
        exact Or.inr ⟨e, by simp only [lookupAssoc]; rw [if_neg hk]; exact h⟩
    · rw [if_neg hn] at h
      simp only [lookupAssoc] at h ⊢
      by_cases hk : p.1 = k
      · rw [if_pos hk] at h
        exact Or.inr ⟨p.2, by rw [if_pos hk]⟩
      · rw [if_neg hk] at h
        rcases ih h with h2 | ⟨e2, he2⟩
        · exact Or.inl h2
        · exact Or.inr ⟨e2, by rw [if_neg hk]; exact he2⟩

theorem countWords_keys (lang : String) (ig : IgnoreSpec) :
    ∀ (ts : List String) (m : WordsData),
      (∀ k e, lookupAssoc m k = some e → pyLower k = k ∧ k ≠ "") →
      ∀ k e, lookupAssoc (ts.foldl (countStep lang ig) m) k = some e →
        pyLower k = k ∧ k ≠ "" := by
  intro ts
  induction ts with
  | nil => intro m hm; exact hm
  | cons t ts ih =>
    intro m hm
    refine ih (countStep lang ig m t) ?_
    intro k e hk
    simp only [countStep] at hk
    split_ifs at hk with h1 h2 h3 h4
    · exact hm k e hk
    · exact hm k e hk
    · exact hm k e hk
    · exact hm k e hk
    · rcases addWord_lookup_keys m _ t k e hk with rfl | ⟨e2, he2⟩
      · exact ⟨pyLower_normalize t lang, h2⟩
      · exact hm k e2 he2

theorem lookupAssoc_insertAssoc_keys {β : Type} (l : List (String × β))
    (k : String) (v : β) (k2 : String)
    (h : lookupAssoc (insertAssoc l k v) k2 ≠ none) :
    lookupAssoc l k2 ≠ none ∨ k2 = k := by
  by_cases hk : k2 = k
  · exact Or.inr hk
  · rw [lookupAssoc_insertAssoc_ne l k k2 v hk] at h
    exact Or.inl h

/-- C10.  Every non-empty key produced by `normalize_word` is already
fully lowercased (lowercasing it again leaves it unchanged); every key
of the aggregation map of `count_words` is such a non-empty lowercase
key; and `get_translation` writes the cache only under its normalized
key argument, so during a run every key added to the per-language cache
slice is an aggregation-map key, hence lowercase. -/
theorem lowercase_key_invariant :
    (∀ w lang, pyLower (normalize_word w lang) = normalize_word w lang) ∧
    (∀ text lang ig k e,
      lookupAssoc (count_words text lang ig).1 k = some e →
      pyLower k = k ∧ k ≠ "") ∧
    (∀ norm_key o lang c p s k2,
      lookupAssoc (get_translation norm_key o lang c p s).2.1 k2 ≠ none →
      lookupAssoc c k2 ≠ none ∨ k2 = norm_key) := by
  refine ⟨fun w lang => pyLower_normalize w lang, ?_, ?_⟩
  · intro text lang ig k e hk
    refine countWords_keys lang ig (tokenize text) [] ?_ k e hk
    intro k e h
    simp [lookupAssoc] at h
  · intro nk o lang c p s k2 h
    rcases h0 : lookupAssoc c nk with _ | v
    · rcases hp : optNonempty (p o lang TARGET_LANG) with _ | t
      · rcases hs : optNonempty (s o lang TARGET_LANG) with _ | t
        · simp only [get_translation, h0, hp, hs] at h
          exact lookupAssoc_insertAssoc_keys c nk "X" k2 h
        · simp only [get_translation, h0, hp, hs] at h
          exact lookupAssoc_insertAssoc_keys c nk t k2 h
      · simp only [get_translation, h0, hp] at h
        exact lookupAssoc_insertAssoc_keys c nk t k2 h
    · simp only [get_translation, h0] at h
      exact Or.inl h

/-- Witness for C10: the aggregation key produced for the token
`"Run"` under `"en"` is the non-empty lowercase string `"run"`. -/
theorem lowercase_key_invariant_witness :
    pyLower "run" = "run" ∧ "run" ≠ "" :=
  lowercase_key_invariant.2.1 "Run" "en" ⟨[], []⟩ "run" ⟨"Run", 1⟩ (by decide)

end Vocab
